import Mathlib

/-!
# PIFO queues of the ns-3 P4 traffic-control module

A verification development for `src/traffic-control/model/pifo-tree-node.h`
(`PifoEntry`, `PifoEntryComp`, `Pifo`) and for the two numeric helpers declared in
`src/traffic-control/model/p4-queue-disc.h` (`Estimator`, `MapSize`).

`Pifo<T>` derives from `std::priority_queue<T, std::vector<T>, PifoEntryComp<T>>`.
The member functions it inherits (`push`, `pop`, `top`, `size`, `empty`) are the ones
of the C++ standard library: `push` is `c.push_back(x); std::push_heap(...)`, `pop` is
`std::pop_heap(...); c.pop_back()`, `top` is `c.front()`.  The heap algorithms are
embedded below after their GNU libstdc++ implementation (`bits/stl_heap.h`), with the
underlying `std::vector` as a `List` and iterators `first + i` as indices.

None of these members checks for an empty container.  A call whose behaviour is
undefined in C++ (`pop_back` on an empty vector, hence `pop` and `Pifo::dequeue` on an
empty queue) has no result in the embedding: the functions return an `Option`, and
`none` stands for "undefined", not for a signalled error.
-/

namespace ns3

/-! ## Data model -/

/-- The object stored within a PIFO (`class PifoEntry`).  `item` is the
`Ptr<QueueDiscItem>` (a nullable reference, `none` being the null pointer);
`node_id`, `pifo_id` are `uint8_t`, `rank`, `tx_delta`, `pkt_len` are `uint32_t`
and `tx_time` is `int64_t`.  No arithmetic is performed on these fields by the code
modelled here, so they are kept as unbounded numbers. -/
structure PifoEntry where
  item : Option Nat
  node_id : Nat
  pifo_id : Nat
  rank : Nat
  tx_time : Int
  tx_delta : Nat
  pkt_len : Nat
deriving DecidableEq, Inhabited

/-- Modelled from the spec: the body of `PifoEntry::GetPriority` is not part of the
header; its declaration is documented as "Get the priority of this entry (i.e. rank)"
and the spec names the rank as the ordering key of a queue. -/
def PifoEntry.GetPriority (e : PifoEntry) : Nat := e.rank

/-- The functor `PifoEntryComp<T>::operator()`:
`return lhs.GetPriority() >= rhs.GetPriority();`. -/
def PifoEntryComp (lhs rhs : PifoEntry) : Bool :=
  decide (lhs.GetPriority ≥ rhs.GetPriority)

/-! ## The heap algorithms behind `std::priority_queue` -/

section Heap

variable {T : Type} [Inhabited T]

/-- Read access `*(first + i)` into the underlying vector. -/
def elemAt (xs : List T) (i : Nat) : T := xs.getD i default

/-- The loop of `std::__push_heap (first, holeIndex, topIndex, value, comp)`:
```
parent = (holeIndex - 1) / 2;
while (holeIndex > topIndex && comp (first + parent, value))
  { *(first + holeIndex) = *(first + parent);
    holeIndex = parent;  parent = (holeIndex - 1) / 2; }
*(first + holeIndex) = value;
```
The first argument bounds the number of iterations; `holeIndex` strictly decreases in
every iteration, so `holeIndex` iterations always suffice (`pushHeapLoop_fuel`).  For
`holeIndex = 0` the signed quotient `(holeIndex - 1) / 2` is `0` in C++, as is the
truncated one on `Nat`. -/
def pushHeapLoop (comp : T → T → Bool) :
    Nat → List T → Nat → Nat → T → List T
  | 0, xs, holeIndex, _, value => xs.set holeIndex value
  | fuel + 1, xs, holeIndex, topIndex, value =>
    let parent := (holeIndex - 1) / 2
    if holeIndex > topIndex ∧ comp (elemAt xs parent) value = true then
      pushHeapLoop comp fuel (xs.set holeIndex (elemAt xs parent)) parent topIndex value
    else
      xs.set holeIndex value

/-- The function `std::__push_heap`. -/
def __push_heap (comp : T → T → Bool) (xs : List T) (holeIndex topIndex : Nat)
    (value : T) : List T :=
  pushHeapLoop comp holeIndex xs holeIndex topIndex value

/-- The function `std::push_heap (first, last, comp)`:
`value = *(last - 1); __push_heap (first, (last - first) - 1, 0, value, comp)`.
It is only called on a non-empty range (right after `push_back`). -/
def push_heap (comp : T → T → Bool) (xs : List T) : List T :=
  let value := elemAt xs (xs.length - 1)
  __push_heap comp xs (xs.length - 1) 0 value

/-- The first loop of `std::__adjust_heap (first, holeIndex, len, value, comp)`:
```
secondChild = holeIndex;
while (secondChild < (len - 1) / 2)
  { secondChild = 2 * (secondChild + 1);
    if (comp (first + secondChild, first + (secondChild - 1))) secondChild--;
    *(first + holeIndex) = *(first + secondChild);
    holeIndex = secondChild; }
```
At every loop head `secondChild` equals `holeIndex`, so one index is carried; the
result is the vector and the final `holeIndex`.  The first argument bounds the number
of iterations; `holeIndex` strictly increases, so `len` iterations always suffice
(`adjustHeapLoop_fuel`). -/
def adjustHeapLoop (comp : T → T → Bool) :
    Nat → List T → Nat → Nat → List T × Nat
  | 0, xs, holeIndex, _ => (xs, holeIndex)
  | fuel + 1, xs, holeIndex, len =>
    if holeIndex < (len - 1) / 2 then
      let secondChild := 2 * (holeIndex + 1)
      let secondChild :=
        if comp (elemAt xs secondChild) (elemAt xs (secondChild - 1)) = true
        then secondChild - 1 else secondChild
      adjustHeapLoop comp fuel (xs.set holeIndex (elemAt xs secondChild)) secondChild len
    else
      (xs, holeIndex)

/-- The step of `std::__adjust_heap` after its loop, for a hole with a single child:
```
if ((len & 1) == 0 && secondChild == (len - 2) / 2)
  { secondChild = 2 * (secondChild + 1);
    *(first + holeIndex) = *(first + (secondChild - 1));
    holeIndex = secondChild - 1; }
```
The distances are signed in C++: for `len = 0` the quotient `(len - 2) / 2` is `-1`
and the test fails, whereas the truncated subtraction on `Nat` gives `0`; hence the
explicit `2 ≤ len`, which changes nothing for `len ≥ 1` (for `len = 1` the test fails on
the parity). -/
def adjustHeapTail (xs : List T) (holeIndex len : Nat) : List T × Nat :=
  if len % 2 = 0 ∧ 2 ≤ len ∧ holeIndex = (len - 2) / 2 then
    let secondChild := 2 * (holeIndex + 1)
    (xs.set holeIndex (elemAt xs (secondChild - 1)), secondChild - 1)
  else
    (xs, holeIndex)

/-- The function `std::__adjust_heap (first, holeIndex, len, value, comp)`: the hole is
moved down to the bottom of the heap along the children preferred by `comp`, then
`value` is pushed up from there with `__push_heap (first, holeIndex, topIndex, value)`,
where `topIndex` is the initial `holeIndex`. -/
def __adjust_heap (comp : T → T → Bool) (xs : List T) (holeIndex len : Nat)
    (value : T) : List T :=
  let topIndex := holeIndex
  let s1 := adjustHeapLoop comp len xs holeIndex len
  let s2 := adjustHeapTail s1.1 s1.2 len
  __push_heap comp s2.1 s2.2 topIndex value

/-- The function `std::__pop_heap (first, last, result, comp)` with `result = last`:
`value = *result; *result = *first; __adjust_heap (first, 0, last - first, value)`.
Here `last` is the index of the last element of `xs`. -/
def __pop_heap (comp : T → T → Bool) (xs : List T) (last : Nat) : List T :=
  let value := elemAt xs last
  __adjust_heap comp (xs.set last (elemAt xs 0)) 0 last value

/-- The function `std::pop_heap (first, last, comp)`:
`if (last - first > 1) { --last; __pop_heap (first, last, last, comp); }`. -/
def pop_heap (comp : T → T → Bool) (xs : List T) : List T :=
  if xs.length > 1 then __pop_heap comp xs (xs.length - 1) else xs

/-- The member `std::vector::pop_back ()`: it removes the last element.  On an empty
vector the call has undefined behaviour: it signals nothing and no state of the vector
is defined afterwards (`none`). -/
def pop_back (xs : List T) : Option (List T) :=
  match xs with
  | [] => none
  | _ :: _ => some xs.dropLast

end Heap

/-! ## The class `Pifo` -/

/-- The class `Pifo<PifoEntry>`: the protected container `c` of the
`std::priority_queue` base and the private member `m_lastPopTime` (`int64_t`,
nanoseconds). -/
structure Pifo where
  c : List PifoEntry
  m_lastPopTime : Int
deriving DecidableEq

namespace Pifo

/-- The constructor `Pifo() : m_lastPopTime(0) {}` on an empty container. -/
def new : Pifo := { c := [], m_lastPopTime := 0 }

/-- Inherited `size()`. -/
def size (q : Pifo) : Nat := q.c.length

/-- Inherited `empty()`. -/
def empty (q : Pifo) : Bool := q.c.isEmpty

/-- Inherited `push(x)`: `c.push_back(x); std::push_heap(c.begin(), c.end(), comp);`. -/
def push (q : Pifo) (x : PifoEntry) : Pifo :=
  { q with c := push_heap PifoEntryComp (q.c ++ [x]) }

/-- Inherited `pop()`: `std::pop_heap(c.begin(), c.end(), comp); c.pop_back();`.
There is no emptiness check: on an empty container the call of `pop_back` is undefined,
and so is the result of `pop()` (`none`). -/
def pop (q : Pifo) : Option Pifo :=
  match pop_back (pop_heap PifoEntryComp q.c) with
  | none => none
  | some c1 => some { q with c := c1 }

/-- Inherited `top()`: `c.front()`, a `const` member function; there is no front
element on an empty container (`none`). -/
def top (q : Pifo) : Option PifoEntry := q.c.head?

/-- The member `Pifo::dequeue ()`, executed when `Simulator::Now ().GetNanoSeconds ()`
is `now`: `pop(); m_lastPopTime = now;`.  It returns `void` and has no check of its
own; the assignment is reached once `pop()` has returned, and where `pop()` is
undefined so is the whole call (`none`). -/
def dequeue (q : Pifo) (now : Int) : Option Pifo :=
  match q.pop with
  | none => none
  | some q1 => some { q1 with m_lastPopTime := now }

/-- The member `Pifo::lastPopTime ()`. -/
def lastPopTime (q : Pifo) : Int := q.m_lastPopTime

end Pifo

/-! ## Specification vocabulary -/

/-- The first `n` positions of `xs` form a binary min-heap on the ranks: every position
`i > 0` holds a rank at least that of its parent `(i - 1) / 2`. -/
def HeapUpTo (xs : List PifoEntry) (n : Nat) : Prop :=
  ∀ i, 0 < i → i < n → (elemAt xs ((i - 1) / 2)).rank ≤ (elemAt xs i).rank

/-- The whole vector is a binary min-heap on the ranks. -/
def IsHeap (xs : List PifoEntry) : Prop := HeapUpTo xs xs.length

/-- One call on a `Pifo` object: `push (x)`, `top ()`, or `dequeue ()` executed at
simulation time `now` (nanoseconds). -/
inductive Op where
  | push (x : PifoEntry)
  | top
  | dequeue (now : Int)
deriving DecidableEq

/-- The state of the object after one call, where the call has a defined result.
`top ()` is a `const` member function that returns a reference to the front element:
the object is left as it is. -/
def Pifo.step (q : Pifo) : Op → Option Pifo
  | Op.push x => some (q.push x)
  | Op.top => some q
  | Op.dequeue now => q.dequeue now

/-- The state of the object after a sequence of calls, first call first; there is none
as soon as one call of the sequence is undefined. -/
def Pifo.run : Pifo → List Op → Option Pifo
  | q, [] => some q
  | q, op :: rest =>
    match q.step op with
    | none => none
    | some q1 => Pifo.run q1 rest

/-- The sequence of calls never applies `dequeue ()` to an empty queue, starting from
the state `q`. -/
def admits : List Op → Pifo → Bool
  | [], _ => true
  | Op.push x :: rest, q => admits rest (q.push x)
  | Op.top :: rest, q => admits rest q
  | Op.dequeue now :: rest, q =>
    !q.empty &&
      (match q.dequeue now with
       | none => false
       | some q1 => admits rest q1)

/-- Number of `push` calls in a sequence of calls. -/
def pushes : List Op → Nat
  | [] => 0
  | Op.push _ :: rest => pushes rest + 1
  | Op.top :: rest => pushes rest
  | Op.dequeue _ :: rest => pushes rest

/-- Number of `dequeue` calls in a sequence of calls. -/
def dequeues : List Op → Nat
  | [] => 0
  | Op.push _ :: rest => dequeues rest
  | Op.top :: rest => dequeues rest
  | Op.dequeue _ :: rest => dequeues rest + 1

/-- The time of the most recent `dequeue ()` in a sequence of calls (the last call comes
last in the list), or `0` if there has been none. -/
def lastDequeueTime : List Op → Int
  | [] => 0
  | Op.push _ :: rest => lastDequeueTime rest
  | Op.top :: rest => lastDequeueTime rest
  | Op.dequeue now :: rest => if dequeues rest = 0 then now else lastDequeueTime rest

/-- Pushing a sequence of entries, first entry first. -/
def Pifo.pushAll (q : Pifo) (es : List PifoEntry) : Pifo := es.foldl Pifo.push q

/-- Successive extractions, one per given simulation time: `top ()` reads the entry,
`dequeue ()` removes it.  The result lists the entries in the order they are read; the
extraction ends early if no entry is left to read or a call is undefined. -/
def extract : List Int → Pifo → List PifoEntry
  | [], _ => []
  | now :: rest, q =>
    match q.top with
    | none => []
    | some e =>
      match q.dequeue now with
      | none => [e]
      | some q1 => e :: extract rest q1

/-! ## The numeric helpers of `P4QueueDisc` -/

/-- Modelled from the spec: the header only declares
`double Estimator (uint32_t nQueued, uint32_t m, double qAvg, double qW)`; its body is
not part of the sources.  The spec gives the rule: for an idle gap of `m` synthetic
empty samples `qAvg' = (1 − qW)^(m+1) · qAvg + qW · nQueued`, which for a busy sample
(`m = 0`) is `(1 − qW) · qAvg + qW · nQueued`.  The doubles are exact rationals here. -/
def Estimator (nQueued m : Nat) (qAvg qW : ℚ) : ℚ :=
  (1 - qW) ^ (m + 1) * qAvg + qW * nQueued

/-- Modelled from the spec: the header only declares `uint32_t MapSize (double size)`,
documented as mapping a double in the range `[0, GetMaxSize()]` to an integer in the
range `[0, 2^m_qSizeBits - 1]`; its body is not part of the sources.  The spec says it
linearly rescales a metric known to lie in `[0, maxQueueSize]` into an unsigned integer
in `[0, 2^qSizeBits − 1]`, clamping out-of-range input.  The conversion to an integer
truncates, and the double is an exact rational here; `maxSize` stands for
`GetMaxSize()` and `qSizeBits` for `m_qSizeBits`. -/
def MapSize (qSizeBits maxSize : Nat) (size : ℚ) : Nat :=
  if size ≤ 0 then 0
  else if (maxSize : ℚ) ≤ size then 2 ^ qSizeBits - 1
  else ⌊size * ((2 ^ qSizeBits - 1 : Nat) : ℚ) / (maxSize : ℚ)⌋₊

end ns3
/-! ## Auxiliary facts about vectors -/

namespace ns3

section Perm

variable {T : Type}

theorem cons_set_perm (xs : List T) (j : Nat) (a b : T) (h : j < xs.length) :
    (a :: xs.set j b).Perm (b :: xs.set j a) := by
  induction xs generalizing j with
  | nil => simp at h
  | cons x t ih =>
    cases j with
    | zero => simpa using List.Perm.swap b a t
    | succ k =>
      simp only [List.set_cons_succ]
      have hk : k < t.length := by simpa using h
      exact ((List.Perm.swap x a _).trans ((ih k hk).cons x)).trans (List.Perm.swap b x _)

theorem set_set_perm (xs : List T) (i j : Nat) (a b : T) (hij : i ≠ j)
    (hi : i < xs.length) (hj : j < xs.length) :
    ((xs.set i a).set j b).Perm ((xs.set i b).set j a) := by
  induction xs generalizing i j with
  | nil => simp at hi
  | cons x t ih =>
    cases i with
    | zero =>
      cases j with
      | zero => exact absurd rfl hij
      | succ k =>
        simp only [List.set_cons_zero, List.set_cons_succ]
        exact cons_set_perm t k a b (by simpa using hj)
    | succ m =>
      cases j with
      | zero =>
        simp only [List.set_cons_zero, List.set_cons_succ]
        exact (cons_set_perm t m a b (by simpa using hi)).symm
      | succ k =>
        simp only [List.set_cons_succ]
        exact (ih m k (by omega) (by simpa using hi) (by simpa using hj)).cons x

end Perm

section Basic

variable {T : Type} [Inhabited T]

theorem elemAt_set (xs : List T) (i j : Nat) (v : T) :
    elemAt (xs.set i v) j = if i = j ∧ i < xs.length then v else elemAt xs j := by
  unfold elemAt
  rw [List.getD_eq_getElem?_getD, List.getD_eq_getElem?_getD, List.getElem?_set]
  by_cases h : i = j
  · subst h
    by_cases h2 : i < xs.length
    · simp [h2]
    · have : xs[i]? = none := List.getElem?_eq_none (by omega)
      simp [h2, this]
  · simp [h]

theorem elemAt_append_left (xs ys : List T) (i : Nat) (h : i < xs.length) :
    elemAt (xs ++ ys) i = elemAt xs i := by
  unfold elemAt
  rw [List.getD_eq_getElem?_getD, List.getD_eq_getElem?_getD, List.getElem?_append_left h]

theorem elemAt_append_length (xs : List T) (x : T) :
    elemAt (xs ++ [x]) xs.length = x := by
  unfold elemAt
  rw [List.getD_eq_getElem?_getD]
  simp

theorem set_elemAt_self (xs : List T) (j : Nat) : xs.set j (elemAt xs j) = xs := by
  induction xs generalizing j with
  | nil => simp
  | cons a t ih =>
    cases j with
    | zero => simp [elemAt]
    | succ k =>
      have := ih k
      simp only [elemAt, List.getD_cons_succ, List.set_cons_succ] at this ⊢
      rw [this]

/-- Moving the element at `j` into the hole `i` and making `j` the new hole keeps the
elements of the vector with the hole filled. -/
theorem move_hole_perm (xs : List T) (i j : Nat) (v : T) (hij : i ≠ j)
    (hi : i < xs.length) (hj : j < xs.length) :
    ((xs.set i (elemAt xs j)).set j v).Perm (xs.set i v) := by
  have h1 := set_set_perm xs i j (elemAt xs j) v hij hi hj
  have h2 : (xs.set i v).set j (elemAt xs j) = xs.set i v := by
    have : elemAt xs j = elemAt (xs.set i v) j := by
      rw [elemAt_set]; simp [hij]
    rw [this, set_elemAt_self]
  rw [h2] at h1
  exact h1

end Basic
/-! ## Shape of the heap algorithms: lengths, untouched positions, elements -/

section Shape

variable {T : Type} [Inhabited T]

theorem elemAt_eq_getElem (xs : List T) (i : Nat) (h : i < xs.length) :
    elemAt xs i = xs[i] := by
  unfold elemAt
  exact List.getD_eq_getElem xs default h

theorem eq_dropLast_append_elemAt (xs : List T) (h : xs ≠ []) :
    xs = xs.dropLast ++ [elemAt xs (xs.length - 1)] := by
  have hlen : xs.length - 1 < xs.length := by
    have := List.length_pos.mpr h
    omega
  rw [elemAt_eq_getElem xs _ hlen, ← List.getLast_eq_getElem xs h,
    List.dropLast_append_getLast h]

theorem length_pushHeapLoop (comp : T → T → Bool) (fuel : Nat) :
    ∀ (xs : List T) (hole top : Nat) (v : T),
      (pushHeapLoop comp fuel xs hole top v).length = xs.length := by
  induction fuel with
  | zero => intro xs hole top v; simp [pushHeapLoop]
  | succ n ih =>
    intro xs hole top v
    simp only [pushHeapLoop]
    split
    · rw [ih]; simp
    · simp

theorem pushHeapLoop_elemAt_gt (comp : T → T → Bool) (fuel : Nat) :
    ∀ (xs : List T) (hole top : Nat) (v : T) (k : Nat), hole < k →
      elemAt (pushHeapLoop comp fuel xs hole top v) k = elemAt xs k := by
  induction fuel with
  | zero =>
    intro xs hole top v k hk
    simp only [pushHeapLoop]
    rw [elemAt_set, if_neg (by omega)]
  | succ n ih =>
    intro xs hole top v k hk
    simp only [pushHeapLoop]
    split
    · rw [ih _ _ _ _ k (by omega), elemAt_set, if_neg (by omega)]
    · rw [elemAt_set, if_neg (by omega)]

theorem pushHeapLoop_perm (comp : T → T → Bool) (fuel : Nat) :
    ∀ (xs : List T) (hole top : Nat) (v : T), hole < xs.length →
      (pushHeapLoop comp fuel xs hole top v).Perm (xs.set hole v) := by
  induction fuel with
  | zero => intro xs hole top v _; simp only [pushHeapLoop]; exact List.Perm.refl _
  | succ n ih =>
    intro xs hole top v hlt
    simp only [pushHeapLoop]
    split
    · rename_i hc
      have hpar : (hole - 1) / 2 < hole := by omega
      refine (ih _ _ _ _ (by rw [List.length_set]; omega)).trans ?_
      exact move_hole_perm xs hole ((hole - 1) / 2) v (by omega) hlt (by omega)
    · exact List.Perm.refl _

theorem length_adjustHeapLoop (comp : T → T → Bool) (fuel : Nat) :
    ∀ (xs : List T) (hole len : Nat),
      (adjustHeapLoop comp fuel xs hole len).1.length = xs.length := by
  induction fuel with
  | zero => intro xs hole len; simp [adjustHeapLoop]
  | succ n ih =>
    intro xs hole len
    simp only [adjustHeapLoop]
    split
    · rw [ih]; simp
    · rfl

theorem adjustHeapLoop_hole_lt (comp : T → T → Bool) (fuel : Nat) :
    ∀ (xs : List T) (hole len : Nat), hole < len →
      (adjustHeapLoop comp fuel xs hole len).2 < len := by
  induction fuel with
  | zero => intro xs hole len h; simpa [adjustHeapLoop] using h
  | succ n ih =>
    intro xs hole len h
    simp only [adjustHeapLoop]
    split
    · apply ih
      split <;> omega
    · exact h

theorem adjustHeapLoop_elemAt_ge (comp : T → T → Bool) (fuel : Nat) :
    ∀ (xs : List T) (hole len k : Nat), len ≤ k →
      elemAt (adjustHeapLoop comp fuel xs hole len).1 k = elemAt xs k := by
  induction fuel with
  | zero => intro xs hole len k _; simp [adjustHeapLoop]
  | succ n ih =>
    intro xs hole len k hk
    simp only [adjustHeapLoop]
    split
    · rw [ih _ _ _ k hk, elemAt_set, if_neg (by omega)]
    · rfl

theorem adjustHeapLoop_perm (comp : T → T → Bool) (fuel : Nat) :
    ∀ (xs : List T) (hole len : Nat) (v : T), hole < len → len ≤ xs.length →
      ((adjustHeapLoop comp fuel xs hole len).1.set
        (adjustHeapLoop comp fuel xs hole len).2 v).Perm (xs.set hole v) := by
  induction fuel with
  | zero => intro xs hole len v _ _; simp only [adjustHeapLoop]; exact List.Perm.refl _
  | succ n ih =>
    intro xs hole len v hlt hlen
    simp only [adjustHeapLoop]
    split
    · rename_i hc
      split
      · refine (ih _ _ _ v (by omega) (by rw [List.length_set]; exact hlen)).trans ?_
        exact move_hole_perm xs hole _ v (by omega) (by omega) (by omega)
      · refine (ih _ _ _ v (by omega) (by rw [List.length_set]; exact hlen)).trans ?_
        exact move_hole_perm xs hole _ v (by omega) (by omega) (by omega)
    · exact List.Perm.refl _

theorem length_adjustHeapTail (xs : List T) (hole len : Nat) :
    (adjustHeapTail xs hole len).1.length = xs.length := by
  unfold adjustHeapTail
  split
  · simp
  · rfl

theorem adjustHeapTail_hole_lt (xs : List T) (hole len : Nat) (h : hole < len) :
    (adjustHeapTail xs hole len).2 < len := by
  unfold adjustHeapTail
  split
  · simp only; omega
  · exact h

theorem adjustHeapTail_elemAt_ge (xs : List T) (hole len k : Nat) (h : hole < len)
    (hk : len ≤ k) : elemAt (adjustHeapTail xs hole len).1 k = elemAt xs k := by
  unfold adjustHeapTail
  split
  · simp only
    rw [elemAt_set, if_neg (by omega)]
  · rfl

theorem adjustHeapTail_perm (xs : List T) (hole len : Nat) (v : T) (h : hole < len)
    (hlen : len ≤ xs.length) :
    ((adjustHeapTail xs hole len).1.set (adjustHeapTail xs hole len).2 v).Perm
      (xs.set hole v) := by
  unfold adjustHeapTail
  split
  · simp only
    exact move_hole_perm xs hole _ v (by omega) (by omega) (by omega)
  · exact List.Perm.refl _

theorem length___adjust_heap (comp : T → T → Bool) (xs : List T) (hole len : Nat)
    (v : T) : (__adjust_heap comp xs hole len v).length = xs.length := by
  unfold __adjust_heap __push_heap
  simp only
  rw [length_pushHeapLoop, length_adjustHeapTail, length_adjustHeapLoop]

theorem __adjust_heap_elemAt_ge (comp : T → T → Bool) (xs : List T) (hole len : Nat)
    (v : T) (k : Nat) (h : hole < len) (hk : len ≤ k) :
    elemAt (__adjust_heap comp xs hole len v) k = elemAt xs k := by
  unfold __adjust_heap __push_heap
  simp only
  have h1 := adjustHeapLoop_hole_lt comp len xs hole len h
  have h2 := adjustHeapTail_hole_lt (adjustHeapLoop comp len xs hole len).1 _ len h1
  rw [pushHeapLoop_elemAt_gt _ _ _ _ _ _ k (by omega),
    adjustHeapTail_elemAt_ge _ _ _ k h1 hk, adjustHeapLoop_elemAt_ge _ _ _ _ _ k hk]

theorem __adjust_heap_perm (comp : T → T → Bool) (xs : List T) (hole len : Nat)
    (v : T) (h : hole < len) (hlen : len ≤ xs.length) :
    (__adjust_heap comp xs hole len v).Perm (xs.set hole v) := by
  unfold __adjust_heap __push_heap
  simp only
  have h1 := adjustHeapLoop_hole_lt comp len xs hole len h
  have h2 := adjustHeapTail_hole_lt (adjustHeapLoop comp len xs hole len).1 _ len h1
  have l1 := length_adjustHeapLoop comp len xs hole len
  have l2 := length_adjustHeapTail (adjustHeapLoop comp len xs hole len).1
    (adjustHeapLoop comp len xs hole len).2 len
  refine (pushHeapLoop_perm comp _ _ _ _ v (by omega)).trans ?_
  refine (adjustHeapTail_perm _ _ len v h1 (by omega)).trans ?_
  exact adjustHeapLoop_perm comp len xs hole len v h hlen

/-- After `push_back (x)` and `push_heap`, the vector holds the old elements and `x`. -/
theorem push_heap_perm (comp : T → T → Bool) (xs : List T) (x : T) :
    (push_heap comp (xs ++ [x])).Perm (x :: xs) := by
  unfold push_heap __push_heap
  simp only [List.length_append, List.length_singleton, Nat.add_sub_cancel]
  rw [elemAt_append_length]
  refine (pushHeapLoop_perm comp _ _ _ _ x (by simp)).trans ?_
  have : (xs ++ [x]).set xs.length x = xs ++ [x] := by
    have h := set_elemAt_self (xs ++ [x]) xs.length
    rw [elemAt_append_length] at h
    exact h
  rw [this]
  exact List.perm_append_singleton x xs

theorem length_push_heap (comp : T → T → Bool) (xs : List T) :
    (push_heap comp xs).length = xs.length := by
  unfold push_heap __push_heap
  simp only
  rw [length_pushHeapLoop]

theorem length_pop_heap (comp : T → T → Bool) (xs : List T) :
    (pop_heap comp xs).length = xs.length := by
  unfold pop_heap __pop_heap
  split
  · simp only
    rw [length___adjust_heap, List.length_set]
  · rfl

/-- After `pop_heap` and `pop_back ()`, the old vector holds its former front element
and the elements that remain. -/
theorem pop_heap_dropLast_perm (comp : T → T → Bool) (xs : List T) (h : xs ≠ []) :
    xs.Perm (elemAt xs 0 :: (pop_heap comp xs).dropLast) := by
  have hpos : 0 < xs.length := List.length_pos.mpr h
  unfold pop_heap
  split
  · rename_i hgt
    have hne : __pop_heap comp xs (xs.length - 1) ≠ [] := by
      intro hnil
      have := congrArg List.length hnil
      unfold __pop_heap at this
      simp only [length___adjust_heap, List.length_set, List.length_nil] at this
      omega
    have hlast : elemAt (__pop_heap comp xs (xs.length - 1)) (xs.length - 1)
        = elemAt xs 0 := by
      unfold __pop_heap
      simp only
      rw [__adjust_heap_elemAt_ge comp _ 0 _ _ _ (by omega) (le_refl _), elemAt_set,
        if_pos ⟨rfl, by omega⟩]
    have hlen : (__pop_heap comp xs (xs.length - 1)).length = xs.length := by
      unfold __pop_heap
      simp only [length___adjust_heap, List.length_set]
    have hperm : (__pop_heap comp xs (xs.length - 1)).Perm xs := by
      unfold __pop_heap
      simp only
      refine (__adjust_heap_perm comp _ 0 _ _ (by omega)
        (by rw [List.length_set]; omega)).trans ?_
      refine (set_set_perm xs (xs.length - 1) 0 _ _ (by omega) (by omega) hpos).trans ?_
      rw [set_elemAt_self, set_elemAt_self]
    have hsplit := eq_dropLast_append_elemAt _ hne
    rw [hlen, hlast] at hsplit
    have h2 : (elemAt xs 0 :: (__pop_heap comp xs (xs.length - 1)).dropLast).Perm
        (__pop_heap comp xs (xs.length - 1)) := by
      conv_rhs => rw [hsplit]
      exact (List.perm_append_singleton _ _).symm
    exact (h2.trans hperm).symm
  · rename_i hle
    match xs, h, hle with
    | [a], _, _ => simp [elemAt]
    | _ :: _ :: _, _, hle => simp at hle

end Shape

/-! ## Adequacy of the iteration bounds -/

section Fuel

variable {T : Type} [Inhabited T]

/-- The loop of `__push_heap` has terminated once `holeIndex` iterations are allowed:
any larger bound gives the same vector. -/
theorem pushHeapLoop_fuel (comp : T → T → Bool) (f1 : Nat) :
    ∀ (f2 : Nat) (xs : List T) (hole top : Nat) (v : T), hole ≤ f1 → hole ≤ f2 →
      pushHeapLoop comp f1 xs hole top v = pushHeapLoop comp f2 xs hole top v := by
  induction f1 with
  | zero =>
    intro f2 xs hole top v h1 _
    have h0 : hole = 0 := by omega
    subst h0
    cases f2 with
    | zero => rfl
    | succ m =>
      simp only [pushHeapLoop]
      rw [if_neg (by omega)]
  | succ n ih =>
    intro f2 xs hole top v h1 h2
    cases f2 with
    | zero =>
      have h0 : hole = 0 := by omega
      subst h0
      simp only [pushHeapLoop]
      rw [if_neg (by omega)]
    | succ m =>
      simp only [pushHeapLoop]
      split
      · exact ih m _ _ _ _ (by omega) (by omega)
      · rfl

/-- The first loop of `__adjust_heap` has terminated once `len - holeIndex` iterations
are allowed: any larger bound gives the same vector and hole. -/
theorem adjustHeapLoop_fuel (comp : T → T → Bool) (f1 : Nat) :
    ∀ (f2 : Nat) (xs : List T) (hole len : Nat), len ≤ f1 + hole → len ≤ f2 + hole →
      adjustHeapLoop comp f1 xs hole len = adjustHeapLoop comp f2 xs hole len := by
  induction f1 with
  | zero =>
    intro f2 xs hole len h1 _
    cases f2 with
    | zero => rfl
    | succ m =>
      simp only [adjustHeapLoop]
      rw [if_neg (by omega)]
  | succ n ih =>
    intro f2 xs hole len h1 h2
    cases f2 with
    | zero =>
      simp only [adjustHeapLoop]
      rw [if_neg (by omega)]
    | succ m =>
      simp only [adjustHeapLoop]
      split
      · split
        · exact ih m _ _ _ (by omega) (by omega)
        · exact ih m _ _ _ (by omega) (by omega)
      · rfl

end Fuel

/-! ## The heap order -/

theorem PifoEntryComp_iff (a b : PifoEntry) :
    PifoEntryComp a b = true ↔ b.rank ≤ a.rank := by
  simp [PifoEntryComp, PifoEntry.GetPriority]

/-- Writing `value` into the hole yields a heap as soon as the parent of the hole ranks
strictly below `value` and the children of the hole rank at least `value`. -/
theorem set_hole_heap (n : Nat) (xs : List PifoEntry) (hole : Nat) (value : PifoEntry)
    (hn : hole < n) (hlen : n ≤ xs.length)
    (hA : ∀ i, 0 < i → i < n → i ≠ hole →
      (elemAt xs ((i - 1) / 2)).rank ≤ (elemAt xs i).rank)
    (hB : ∀ c, 0 < c → c < n → (c - 1) / 2 = hole → value.rank ≤ (elemAt xs c).rank)
    (hP : hole = 0 ∨ (elemAt xs ((hole - 1) / 2)).rank < value.rank) :
    HeapUpTo (xs.set hole value) n := by
  intro i hi0 hin
  simp only [elemAt_set]
  by_cases h1 : hole = i
  · subst h1
    rw [if_neg (by omega : ¬ (hole = (hole - 1) / 2 ∧ hole < xs.length)),
      if_pos (⟨rfl, by omega⟩ : hole = hole ∧ hole < xs.length)]
    rcases hP with h0 | hlt
    · omega
    · omega
  · rw [if_neg (fun h => h1 h.1 : ¬ (hole = i ∧ hole < xs.length))]
    by_cases h2 : hole = (i - 1) / 2
    · rw [if_pos (⟨h2, by omega⟩ : hole = (i - 1) / 2 ∧ hole < xs.length)]
      exact hB i hi0 hin h2.symm
    · rw [if_neg (fun h => h2 h.1 : ¬ (hole = (i - 1) / 2 ∧ hole < xs.length))]
      exact hA i hi0 hin (fun h => h1 h.symm)

theorem pushHeapLoop_heap (n : Nat) (fuel : Nat) :
    ∀ (xs : List PifoEntry) (hole : Nat) (value : PifoEntry),
      hole ≤ fuel → hole < n → n ≤ xs.length →
      (∀ i, 0 < i → i < n → i ≠ hole →
        (elemAt xs ((i - 1) / 2)).rank ≤ (elemAt xs i).rank) →
      (∀ c, 0 < c → c < n → (c - 1) / 2 = hole → value.rank ≤ (elemAt xs c).rank) →
      (∀ c, 0 < c → c < n → (c - 1) / 2 = hole → 0 < hole →
        (elemAt xs ((hole - 1) / 2)).rank ≤ (elemAt xs c).rank) →
      HeapUpTo (pushHeapLoop PifoEntryComp fuel xs hole 0 value) n := by
  induction fuel with
  | zero =>
    intro xs hole value hf hn hlen hA hB hD
    simp only [pushHeapLoop]
    exact set_hole_heap n xs hole value hn hlen hA hB (Or.inl (by omega))
  | succ m ih =>
    intro xs hole value hf hn hlen hA hB hD
    simp only [pushHeapLoop]
    split
    · rename_i hc
      obtain ⟨hpos, hcomp⟩ := hc
      rw [PifoEntryComp_iff] at hcomp
      have hp : (hole - 1) / 2 < hole := by omega
      have hholelen : hole < xs.length := by omega
      apply ih _ _ _ (by omega) (by omega) (by rw [List.length_set]; exact hlen)
      · intro i hi0 hin hne
        simp only [elemAt_set]
        by_cases h1 : hole = i
        · subst h1
          rw [if_neg (by omega : ¬ (hole = (hole - 1) / 2 ∧ hole < xs.length)),
            if_pos (⟨rfl, hholelen⟩ : hole = hole ∧ hole < xs.length)]
        · rw [if_neg (fun h => h1 h.1 : ¬ (hole = i ∧ hole < xs.length))]
          by_cases h2 : hole = (i - 1) / 2
          · rw [if_pos (⟨h2, hholelen⟩ : hole = (i - 1) / 2 ∧ hole < xs.length)]
            exact hD i hi0 hin h2.symm hpos
          · rw [if_neg (fun h => h2 h.1 : ¬ (hole = (i - 1) / 2 ∧ hole < xs.length))]
            exact hA i hi0 hin (fun h => h1 h.symm)
      · intro c hc0 hcn hcp
        simp only [elemAt_set]
        by_cases h1 : hole = c
        · rw [if_pos (⟨h1, hholelen⟩ : hole = c ∧ hole < xs.length)]
          exact hcomp
        · rw [if_neg (fun h => h1 h.1 : ¬ (hole = c ∧ hole < xs.length))]
          have := hA c hc0 hcn (fun h => h1 h.symm)
          rw [hcp] at this
          omega
      · intro c hc0 hcn hcp hp0
        simp only [elemAt_set]
        rw [if_neg (by omega :
          ¬ (hole = ((hole - 1) / 2 - 1) / 2 ∧ hole < xs.length))]
        have h3 := hA _ hp0 (by omega) (by omega : (hole - 1) / 2 ≠ hole)
        by_cases h1 : hole = c
        · rw [if_pos (⟨h1, hholelen⟩ : hole = c ∧ hole < xs.length)]
          exact h3
        · rw [if_neg (fun h => h1 h.1 : ¬ (hole = c ∧ hole < xs.length))]
          have := hA c hc0 hcn (fun h => h1 h.symm)
          rw [hcp] at this
          omega
    · rename_i hc
      apply set_hole_heap n xs hole value hn hlen hA hB
      by_cases h0 : hole = 0
      · exact Or.inl h0
      · right
        have : ¬ PifoEntryComp (elemAt xs ((hole - 1) / 2)) value = true := by
          intro h
          exact hc ⟨by omega, h⟩
        rw [PifoEntryComp_iff] at this
        omega

/-- Copying the child `c` into the hole keeps the heap order when `c` ranks lowest
among the children of the hole. -/
theorem move_child_heap (len : Nat) (xs : List PifoEntry) (hole c : Nat)
    (hH : HeapUpTo xs len) (hc : c < len) (hlen : len ≤ xs.length)
    (hpar : (c - 1) / 2 = hole) (hc0 : 0 < c)
    (hmin : ∀ i, 0 < i → i < len → (i - 1) / 2 = hole →
      (elemAt xs c).rank ≤ (elemAt xs i).rank) :
    HeapUpTo (xs.set hole (elemAt xs c)) len := by
  intro i hi0 hin
  have hholelen : hole < xs.length := by omega
  simp only [elemAt_set]
  by_cases h1 : hole = i
  · subst h1
    rw [if_neg (by omega : ¬ (hole = (hole - 1) / 2 ∧ hole < xs.length)),
      if_pos (⟨rfl, hholelen⟩ : hole = hole ∧ hole < xs.length)]
    have h2 := hH hole hi0 hin
    have h3 := hH c hc0 hc
    rw [hpar] at h3
    omega
  · rw [if_neg (fun h => h1 h.1 : ¬ (hole = i ∧ hole < xs.length))]
    by_cases h2 : hole = (i - 1) / 2
    · rw [if_pos (⟨h2, hholelen⟩ : hole = (i - 1) / 2 ∧ hole < xs.length)]
      exact hmin i hi0 hin h2.symm
    · rw [if_neg (fun h => h2 h.1 : ¬ (hole = (i - 1) / 2 ∧ hole < xs.length))]
      exact hH i hi0 hin

theorem adjustHeapLoop_heap (len : Nat) (fuel : Nat) :
    ∀ (xs : List PifoEntry) (hole : Nat), hole < len → len ≤ xs.length →
      HeapUpTo xs len → HeapUpTo (adjustHeapLoop PifoEntryComp fuel xs hole len).1 len := by
  induction fuel with
  | zero => intro xs hole _ _ hH; simpa [adjustHeapLoop] using hH
  | succ m ih =>
    intro xs hole hlt hlen hH
    simp only [adjustHeapLoop]
    split
    · rename_i hcond
      split
      · rename_i hcmp
        rw [PifoEntryComp_iff] at hcmp
        apply ih _ _ (by omega) (by rw [List.length_set]; exact hlen)
        apply move_child_heap len xs hole _ hH (by omega) hlen (by omega) (by omega)
        intro i hi0 hin hip
        have hi : i = 2 * (hole + 1) - 1 ∨ i = 2 * (hole + 1) := by omega
        rcases hi with hi | hi
        · rw [hi]
        · rw [hi]; exact hcmp
      · rename_i hcmp
        rw [PifoEntryComp_iff] at hcmp
        apply ih _ _ (by omega) (by rw [List.length_set]; exact hlen)
        apply move_child_heap len xs hole _ hH (by omega) hlen (by omega) (by omega)
        intro i hi0 hin hip
        have hi : i = 2 * (hole + 1) - 1 ∨ i = 2 * (hole + 1) := by omega
        rcases hi with hi | hi
        · rw [hi]; omega
        · rw [hi]
    · exact hH

/-- With enough iterations the first loop of `__adjust_heap` only stops at a hole that
has no second child. -/
theorem adjustHeapLoop_exit (comp : PifoEntry → PifoEntry → Bool) (len : Nat)
    (fuel : Nat) :
    ∀ (xs : List PifoEntry) (hole : Nat), len ≤ fuel + hole →
      ¬ ((adjustHeapLoop comp fuel xs hole len).2 < (len - 1) / 2) := by
  induction fuel with
  | zero => intro xs hole h; simp only [adjustHeapLoop]; omega
  | succ m ih =>
    intro xs hole h
    simp only [adjustHeapLoop]
    split
    · apply ih
      split <;> omega
    · assumption

theorem adjustHeapTail_heap (len : Nat) (xs : List PifoEntry) (hole : Nat)
    (hlen : len ≤ xs.length) (hH : HeapUpTo xs len) :
    HeapUpTo (adjustHeapTail xs hole len).1 len := by
  unfold adjustHeapTail
  split
  · rename_i hc
    simp only
    apply move_child_heap len xs hole _ hH (by omega) hlen (by omega) (by omega)
    intro i hi0 hin hip
    have hi : i = 2 * (hole + 1) - 1 := by omega
    rw [hi]
  · exact hH

/-- After the two descending steps of `__adjust_heap` the hole has no child. -/
theorem adjustHeapTail_leaf (len : Nat) (xs : List PifoEntry) (hole : Nat)
    (hexit : ¬ (hole < (len - 1) / 2)) :
    ∀ c, 0 < c → c < len → (c - 1) / 2 ≠ (adjustHeapTail xs hole len).2 := by
  intro c hc0 hcl
  unfold adjustHeapTail
  split
  · simp only; omega
  · simp only; omega

theorem __adjust_heap_heap (len : Nat) (xs : List PifoEntry) (value : PifoEntry)
    (hpos : 0 < len) (hlen : len ≤ xs.length) (hH : HeapUpTo xs len) :
    HeapUpTo (__adjust_heap PifoEntryComp xs 0 len value) len := by
  unfold __adjust_heap __push_heap
  simp only
  have h1 := adjustHeapLoop_hole_lt PifoEntryComp len xs 0 len hpos
  have l1 := length_adjustHeapLoop PifoEntryComp len xs 0 len
  have e1 := adjustHeapLoop_exit PifoEntryComp len len xs 0 (by omega)
  have H1 := adjustHeapLoop_heap len len xs 0 hpos hlen hH
  have h2 := adjustHeapTail_hole_lt (adjustHeapLoop PifoEntryComp len xs 0 len).1 _ len h1
  have l2 := length_adjustHeapTail (adjustHeapLoop PifoEntryComp len xs 0 len).1
    (adjustHeapLoop PifoEntryComp len xs 0 len).2 len
  have H2 := adjustHeapTail_heap len _ (adjustHeapLoop PifoEntryComp len xs 0 len).2
    (by omega) H1
  have leaf := adjustHeapTail_leaf len (adjustHeapLoop PifoEntryComp len xs 0 len).1 _ e1
  apply pushHeapLoop_heap len _ _ _ _ (le_refl _) h2 (by omega)
  · intro i hi0 hin _
    exact H2 i hi0 hin
  · intro c hc0 hcl hcp
    exact absurd hcp (leaf c hc0 hcl)
  · intro c hc0 hcl hcp
    exact absurd hcp (leaf c hc0 hcl)

theorem elemAt_dropLast (xs : List PifoEntry) (i : Nat) (h : i < xs.length - 1) :
    elemAt xs.dropLast i = elemAt xs i := by
  unfold elemAt
  rw [List.getD_eq_getElem?_getD, List.getD_eq_getElem?_getD, List.getElem?_dropLast,
    if_pos h]

/-- The inherited `push` keeps the vector a heap. -/
theorem push_heap_isHeap (xs : List PifoEntry) (x : PifoEntry) (hH : IsHeap xs) :
    IsHeap (push_heap PifoEntryComp (xs ++ [x])) := by
  unfold IsHeap
  rw [length_push_heap]
  unfold push_heap __push_heap
  simp only [List.length_append, List.length_singleton, Nat.add_sub_cancel]
  apply pushHeapLoop_heap (xs.length + 1) _ _ _ _ (le_refl _) (by omega) (by simp)
  · intro i hi0 hin hne
    rw [elemAt_append_left _ _ _ (by omega), elemAt_append_left _ _ _ (by omega)]
    exact hH i hi0 (by omega)
  · intro c hc0 hcl hcp
    omega
  · intro c hc0 hcl hcp
    omega

/-- The inherited `pop` keeps the vector a heap. -/
theorem pop_heap_dropLast_isHeap (xs : List PifoEntry) (hH : IsHeap xs) :
    IsHeap (pop_heap PifoEntryComp xs).dropLast := by
  unfold IsHeap
  rw [List.length_dropLast, length_pop_heap]
  intro i hi0 hin
  have hl : (pop_heap PifoEntryComp xs).length = xs.length := length_pop_heap _ _
  rw [elemAt_dropLast _ _ (by omega), elemAt_dropLast _ _ (by omega)]
  have hgt : xs.length > 1 := by omega
  unfold pop_heap __pop_heap
  rw [if_pos hgt]
  simp only
  refine __adjust_heap_heap (xs.length - 1) _ _ (by omega)
    (by rw [List.length_set]; omega) ?_ i hi0 hin
  intro k hk0 hkn
  rw [elemAt_set, elemAt_set, if_neg (by omega), if_neg (by omega)]
  exact hH k hk0 (by omega)

/-- The front of a heap holds a lowest rank. -/
theorem heap_front_le (xs : List PifoEntry) (n : Nat) (hH : HeapUpTo xs n) :
    ∀ i, i < n → (elemAt xs 0).rank ≤ (elemAt xs i).rank := by
  intro i
  induction i using Nat.strong_induction_on with
  | _ i ih =>
    intro hi
    by_cases h0 : i = 0
    · subst h0; exact le_refl _
    · have hp := ih ((i - 1) / 2) (by omega) (by omega)
      have he := hH i (by omega) hi
      omega

theorem mem_iff_elemAt (xs : List PifoEntry) (x : PifoEntry) :
    x ∈ xs ↔ ∃ i, i < xs.length ∧ elemAt xs i = x := by
  constructor
  · intro h
    obtain ⟨i, hi, hx⟩ := List.getElem_of_mem h
    exact ⟨i, hi, by rw [elemAt_eq_getElem xs i hi]; exact hx⟩
  · rintro ⟨i, hi, hx⟩
    rw [elemAt_eq_getElem xs i hi] at hx
    rw [← hx]
    exact List.getElem_mem hi

theorem isHeap_nil : IsHeap [] := by
  intro i _ hi
  simp at hi

/-! ## Invariants of the class `Pifo` -/

theorem top_eq_of_ne_nil (q : Pifo) (h : q.c ≠ []) : q.top = some (elemAt q.c 0) := by
  unfold Pifo.top
  cases hc : q.c with
  | nil => exact absurd hc h
  | cons a t => simp [elemAt]

theorem empty_eq_false_iff (q : Pifo) : q.empty = false ↔ q.c ≠ [] := by
  unfold Pifo.empty
  cases q.c <;> simp

theorem empty_eq_true_iff (q : Pifo) : q.empty = true ↔ q.c = [] := by
  unfold Pifo.empty
  cases q.c <;> simp

theorem pop_back_eq_some (xs : List PifoEntry) (h : xs ≠ []) :
    pop_back xs = some xs.dropLast := by
  cases xs with
  | nil => exact absurd rfl h
  | cons a t => rfl

/-- On a queue that holds no entries the call of `dequeue ()` is undefined. -/
theorem dequeue_eq_none (q : Pifo) (now : Int) (h : q.c = []) : q.dequeue now = none := by
  unfold Pifo.dequeue Pifo.pop
  rw [h]
  rfl

/-- On a queue that holds an entry the call of `dequeue ()` returns, with the vector
left by `pop_heap` and `pop_back` and with the new time stamp. -/
theorem dequeue_eq_some (q : Pifo) (now : Int) (h : q.c ≠ []) :
    q.dequeue now
      = some { c := (pop_heap PifoEntryComp q.c).dropLast, m_lastPopTime := now } := by
  have hne : pop_heap PifoEntryComp q.c ≠ [] := by
    intro hnil
    have := congrArg List.length hnil
    rw [length_pop_heap] at this
    exact h (List.length_eq_zero.mp this)
  unfold Pifo.dequeue Pifo.pop
  rw [pop_back_eq_some _ hne]

theorem push_perm (q : Pifo) (x : PifoEntry) : (q.push x).c.Perm (x :: q.c) :=
  push_heap_perm PifoEntryComp q.c x

theorem dequeue_perm (q q1 : Pifo) (now : Int) (h : q.dequeue now = some q1) :
    q.c.Perm (elemAt q.c 0 :: q1.c) := by
  by_cases hc : q.c = []
  · rw [dequeue_eq_none q now hc] at h
    exact absurd h (by simp)
  · rw [dequeue_eq_some q now hc] at h
    have := Option.some.inj h
    rw [← this]
    exact pop_heap_dropLast_perm PifoEntryComp q.c hc

theorem dequeue_isHeap (q q1 : Pifo) (now : Int) (h : q.dequeue now = some q1)
    (hH : IsHeap q.c) : IsHeap q1.c := by
  by_cases hc : q.c = []
  · rw [dequeue_eq_none q now hc] at h
    exact absurd h (by simp)
  · rw [dequeue_eq_some q now hc] at h
    have := Option.some.inj h
    rw [← this]
    exact pop_heap_dropLast_isHeap q.c hH

theorem dequeue_lastPopTime (q q1 : Pifo) (now : Int) (h : q.dequeue now = some q1) :
    q1.lastPopTime = now := by
  by_cases hc : q.c = []
  · rw [dequeue_eq_none q now hc] at h
    exact absurd h (by simp)
  · rw [dequeue_eq_some q now hc] at h
    have := Option.some.inj h
    rw [← this]
    rfl

theorem size_push (q : Pifo) (x : PifoEntry) : (q.push x).size = q.size + 1 := by
  unfold Pifo.size
  rw [(push_perm q x).length_eq, List.length_cons]

theorem size_dequeue (q q1 : Pifo) (now : Int) (h : q.dequeue now = some q1) :
    q1.size + 1 = q.size := by
  unfold Pifo.size
  rw [(dequeue_perm q q1 now h).length_eq, List.length_cons]

theorem step_isHeap (q q1 : Pifo) (op : Op) (h : q.step op = some q1)
    (hH : IsHeap q.c) : IsHeap q1.c := by
  cases op with
  | push x =>
    have := Option.some.inj h
    rw [← this]
    exact push_heap_isHeap q.c x hH
  | top =>
    have := Option.some.inj h
    rw [← this]
    exact hH
  | dequeue now => exact dequeue_isHeap q q1 now h hH

theorem run_isHeap (ops : List Op) :
    ∀ q q1 : Pifo, q.run ops = some q1 → IsHeap q.c → IsHeap q1.c := by
  induction ops with
  | nil =>
    intro q q1 h hH
    have := Option.some.inj h
    rw [← this]
    exact hH
  | cons op rest ih =>
    intro q q1 h hH
    simp only [Pifo.run] at h
    cases hs : q.step op with
    | none => rw [hs] at h; exact absurd h (by simp)
    | some q2 =>
      rw [hs] at h
      exact ih q2 q1 h (step_isHeap q q2 op hs hH)

theorem pushAll_spec (es : List PifoEntry) :
    ∀ q : Pifo, IsHeap q.c → IsHeap (q.pushAll es).c ∧ (q.pushAll es).c.Perm (q.c ++ es) := by
  induction es with
  | nil => intro q h; exact ⟨h, by simp [Pifo.pushAll]⟩
  | cons e rest ih =>
    intro q h
    have hstep := ih (q.push e) (push_heap_isHeap q.c e h)
    refine ⟨hstep.1, hstep.2.trans ?_⟩
    have h1 : ((q.push e).c ++ rest).Perm ((e :: q.c) ++ rest) :=
      (push_perm q e).append_right rest
    refine h1.trans ?_
    simp only [List.cons_append]
    exact List.perm_middle.symm

/-- The front of a heap ranks lowest among the members of the vector. -/
theorem heap_front_le_mem (xs : List PifoEntry) (hH : IsHeap xs) (x : PifoEntry)
    (hx : x ∈ xs) : (elemAt xs 0).rank ≤ x.rank := by
  obtain ⟨i, hi, rfl⟩ := (mem_iff_elemAt xs x).mp hx
  exact heap_front_le xs xs.length hH i hi

theorem extract_spec (times : List Int) :
    ∀ q : Pifo, IsHeap q.c → times.length = q.c.length →
      (extract times q).Perm q.c ∧
      (extract times q).Pairwise (fun a b => a.rank ≤ b.rank) := by
  induction times with
  | nil =>
    intro q _ hlen
    have : q.c = [] := List.length_eq_zero.mp hlen.symm
    simp [extract, this]
  | cons now rest ih =>
    intro q hH hlen
    have hne : q.c ≠ [] := by
      intro h
      rw [h] at hlen
      simp at hlen
    have hdq := dequeue_eq_some q now hne
    have hperm := dequeue_perm q _ now hdq
    have hlen2 : rest.length
        = (pop_heap PifoEntryComp q.c).dropLast.length := by
      have := hperm.length_eq
      simp only [List.length_cons] at this hlen
      omega
    obtain ⟨ihp, ihs⟩ := ih _ (dequeue_isHeap q _ now hdq hH) hlen2
    simp only [extract, top_eq_of_ne_nil q hne, hdq]
    refine ⟨(ihp.cons _).trans hperm.symm, ?_⟩
    rw [List.pairwise_cons]
    refine ⟨?_, ihs⟩
    intro b hb
    have hb2 := ihp.subset hb
    have hb3 : b ∈ q.c := hperm.symm.subset (List.mem_cons_of_mem _ hb2)
    exact heap_front_le_mem q.c hH b hb3

/-- A sequence of calls that never applies `dequeue ()` to an empty queue runs to a
defined state, whose size and time stamp are those counted on the sequence. -/
theorem admits_run (ops : List Op) :
    ∀ q : Pifo, admits ops q = true →
      ∃ q1, q.run ops = some q1 ∧
        q1.size + dequeues ops = q.size + pushes ops ∧
        q1.lastPopTime
          = if dequeues ops = 0 then q.lastPopTime else lastDequeueTime ops := by
  induction ops with
  | nil => intro q _; exact ⟨q, rfl, by simp [dequeues, pushes], by simp [dequeues]⟩
  | cons op rest ih =>
    intro q h
    cases op with
    | push x =>
      simp only [admits] at h
      obtain ⟨q1, hrun, hsize, htime⟩ := ih (q.push x) h
      rw [size_push] at hsize
      refine ⟨q1, by simpa [Pifo.run, Pifo.step] using hrun, ?_, ?_⟩
      · simp only [dequeues, pushes]; omega
      · simpa [dequeues, lastDequeueTime, Pifo.push, Pifo.lastPopTime] using htime
    | top =>
      simp only [admits] at h
      obtain ⟨q1, hrun, hsize, htime⟩ := ih q h
      refine ⟨q1, by simpa [Pifo.run, Pifo.step] using hrun, ?_, ?_⟩
      · simp only [dequeues, pushes]; omega
      · simpa [dequeues, lastDequeueTime] using htime
    | dequeue now =>
      simp only [admits, Bool.and_eq_true, Bool.not_eq_true'] at h
      have hc : q.c ≠ [] := (empty_eq_false_iff q).mp h.1
      have hdq := dequeue_eq_some q now hc
      have h2 := h.2
      rw [hdq] at h2
      obtain ⟨q1, hrun, hsize, htime⟩ := ih _ h2
      have hs := size_dequeue q _ now hdq
      have ht := dequeue_lastPopTime q _ now hdq
      refine ⟨q1, by simpa [Pifo.run, Pifo.step, hdq] using hrun, ?_, ?_⟩
      · simp only [dequeues, pushes]; omega
      · rw [ht] at htime
        simpa [dequeues, lastDequeueTime] using htime

theorem lastDequeueTime_of_no_dequeue (ops : List Op) (h : dequeues ops = 0) :
    lastDequeueTime ops = 0 := by
  induction ops with
  | nil => rfl
  | cons op rest ih =>
    cases op with
    | push x => simp only [dequeues] at h; simpa [lastDequeueTime] using ih h
    | top => simp only [dequeues] at h; simpa [lastDequeueTime] using ih h
    | dequeue now => simp [dequeues] at h

/-! ## The queue contract -/

/-- Claim C1: for every finite sequence of entries pushed into an initially empty
`Pifo`, as many successive extractions (`top ()` followed by `dequeue ()`, at any
simulation times) all return an entry, the ranks of the returned entries are in
non-decreasing order, and the returned entries are a permutation of the pushed ones. -/
theorem extract_pushAll_sorted_perm (es : List PifoEntry) (times : List Int)
    (hn : times.length = es.length) :
    (extract times (Pifo.new.pushAll es)).length = es.length ∧
    (extract times (Pifo.new.pushAll es)).Pairwise (fun a b => a.rank ≤ b.rank) ∧
    (extract times (Pifo.new.pushAll es)).Perm es := by
  obtain ⟨hH, hP⟩ := pushAll_spec es Pifo.new isHeap_nil
  have hP2 : (Pifo.new.pushAll es).c.Perm es := by simpa [Pifo.new] using hP
  obtain ⟨h1, h2⟩ := extract_spec times (Pifo.new.pushAll es) hH
    (by rw [hn, hP2.length_eq])
  exact ⟨(h1.trans hP2).length_eq, h2, h1.trans hP2⟩

theorem extract_pushAll_sorted_perm_witness :
    ([1, 2, 3] : List Int).length
      = [(⟨none, 0, 0, 30, 0, 0, 0⟩ : PifoEntry), ⟨none, 0, 0, 20, 0, 0, 0⟩,
          ⟨none, 0, 0, 10, 0, 0, 0⟩].length ∧
    (extract [1, 2, 3] (Pifo.new.pushAll
      [⟨none, 0, 0, 30, 0, 0, 0⟩, ⟨none, 0, 0, 20, 0, 0, 0⟩,
        ⟨none, 0, 0, 10, 0, 0, 0⟩])).length = 3 ∧
    (extract [1, 2, 3] (Pifo.new.pushAll
      [⟨none, 0, 0, 30, 0, 0, 0⟩, ⟨none, 0, 0, 20, 0, 0, 0⟩,
        ⟨none, 0, 0, 10, 0, 0, 0⟩])).Pairwise (fun a b => a.rank ≤ b.rank) ∧
    (extract [1, 2, 3] (Pifo.new.pushAll
      [⟨none, 0, 0, 30, 0, 0, 0⟩, ⟨none, 0, 0, 20, 0, 0, 0⟩,
        ⟨none, 0, 0, 10, 0, 0, 0⟩])).Perm
      [⟨none, 0, 0, 30, 0, 0, 0⟩, ⟨none, 0, 0, 20, 0, 0, 0⟩, ⟨none, 0, 0, 10, 0, 0, 0⟩] :=
  ⟨by decide, extract_pushAll_sorted_perm _ _ (by decide)⟩

/-- Claim C2: in every non-empty `Pifo` reached from a new one by any sequence of
`push`, `top` and `dequeue` calls, `top ()` returns an entry of the queue whose rank is
at most the rank of every entry in the queue, and the call leaves the contents, the
size and `lastPopTime` as they were. -/
theorem top_min_and_pure (ops : List Op) (q : Pifo)
    (hrun : Pifo.new.run ops = some q) (hne : q.empty = false) :
    ∃ e, q.top = some e ∧ e ∈ q.c ∧
      (∀ x ∈ q.c, e.rank ≤ x.rank) ∧
      ∃ q1, q.step Op.top = some q1 ∧ q1.c = q.c ∧ q1.size = q.size ∧
        q1.lastPopTime = q.lastPopTime := by
  have hH : IsHeap q.c := run_isHeap ops Pifo.new q hrun isHeap_nil
  have hc : q.c ≠ [] := (empty_eq_false_iff _).mp hne
  refine ⟨elemAt q.c 0, top_eq_of_ne_nil _ hc, ?_, ?_, q, rfl, rfl, rfl, rfl⟩
  · exact (mem_iff_elemAt _ _).mpr ⟨0, List.length_pos.mpr hc, rfl⟩
  · intro x hx
    exact heap_front_le_mem _ hH x hx

theorem top_min_and_pure_witness :
    Pifo.new.run [Op.push ⟨none, 0, 0, 7, 0, 0, 0⟩, Op.push ⟨none, 0, 0, 3, 0, 0, 0⟩,
        Op.dequeue 4, Op.push ⟨none, 0, 0, 9, 0, 0, 0⟩]
      = some ⟨[⟨none, 0, 0, 7, 0, 0, 0⟩, ⟨none, 0, 0, 9, 0, 0, 0⟩], 4⟩ ∧
    Pifo.empty ⟨[⟨none, 0, 0, 7, 0, 0, 0⟩, ⟨none, 0, 0, 9, 0, 0, 0⟩], 4⟩ = false ∧
    ∃ e, Pifo.top ⟨[⟨none, 0, 0, 7, 0, 0, 0⟩, ⟨none, 0, 0, 9, 0, 0, 0⟩], 4⟩ = some e ∧
      ∀ x ∈ Pifo.c ⟨[⟨none, 0, 0, 7, 0, 0, 0⟩, ⟨none, 0, 0, 9, 0, 0, 0⟩], 4⟩,
        e.rank ≤ x.rank :=
  ⟨by decide, by decide,
    (top_min_and_pure [Op.push ⟨none, 0, 0, 7, 0, 0, 0⟩, Op.push ⟨none, 0, 0, 3, 0, 0, 0⟩,
      Op.dequeue 4, Op.push ⟨none, 0, 0, 9, 0, 0, 0⟩]
      ⟨[⟨none, 0, 0, 7, 0, 0, 0⟩, ⟨none, 0, 0, 9, 0, 0, 0⟩], 4⟩
      (by decide) (by decide)).imp (fun _ h => ⟨h.1, h.2.2.1⟩)⟩

/-- Claim C3, refuted as stated: `dequeue ()` on the empty new `Pifo` at simulation time
`5` is not a rejection that leaves the queue as it was.  The call runs into `pop_back`
on an empty vector: it has no defined result, and in particular not the unchanged
queue. -/
theorem dequeue_empty_not_rejected :
    Pifo.new.empty = true ∧ Pifo.new.dequeue 5 = none ∧
    Pifo.new.dequeue 5 ≠ some Pifo.new := by
  decide

/-- Claim C3, amended: `dequeue ()` has no emptiness check and no error result; on a
`Pifo` that holds no entries its call of `pop ()` reaches `pop_back` on an empty vector,
so the call is undefined and fixes neither the contents nor `lastPopTime`. -/
theorem dequeue_empty_undefined (q : Pifo) (now : Int) (hempty : q.empty = true) :
    q.pop = none ∧ q.dequeue now = none := by
  have hc : q.c = [] := (empty_eq_true_iff q).mp hempty
  refine ⟨?_, dequeue_eq_none q now hc⟩
  unfold Pifo.pop
  rw [hc]
  rfl

theorem dequeue_empty_undefined_witness :
    Pifo.new.empty = true ∧ Pifo.new.pop = none ∧ Pifo.new.dequeue 5 = none :=
  ⟨by decide, dequeue_empty_undefined Pifo.new 5 (by decide)⟩

/-- Claim C4, evaluated on the code: `PifoEntryComp` holds of every entry and itself,
and holds both ways round of any two entries of equal rank, so it is neither
irreflexive nor asymmetric. -/
theorem PifoEntryComp_reflexive (a b : PifoEntry) :
    PifoEntryComp a a = true ∧
    PifoEntryComp a { b with rank := a.rank } = true ∧
    PifoEntryComp { b with rank := a.rank } a = true := by
  simp [PifoEntryComp, PifoEntry.GetPriority]

/-- Claim C5: a `Pifo` that started empty and has undergone `k` pushes and `j` dequeues,
in any interleaving (calls of `top ()` included) that never applies `dequeue ()` to an
empty queue, has `j ≤ k` and size exactly `k − j`. -/
theorem size_after_pushes_dequeues (ops : List Op) (k j : Nat)
    (hvalid : admits ops Pifo.new = true) (hk : pushes ops = k) (hj : dequeues ops = j) :
    j ≤ k ∧ ∃ q, Pifo.new.run ops = some q ∧ q.size = k - j := by
  obtain ⟨q, hrun, hsize, _⟩ := admits_run ops Pifo.new hvalid
  have h0 : Pifo.new.size = 0 := rfl
  exact ⟨by omega, q, hrun, by omega⟩

theorem size_after_pushes_dequeues_witness :
    admits [Op.push ⟨none, 0, 0, 7, 0, 0, 0⟩, Op.push ⟨none, 0, 0, 3, 0, 0, 0⟩,
      Op.dequeue 4, Op.top, Op.push ⟨none, 0, 0, 9, 0, 0, 0⟩] Pifo.new = true ∧
    ∃ q, Pifo.new.run [Op.push ⟨none, 0, 0, 7, 0, 0, 0⟩, Op.push ⟨none, 0, 0, 3, 0, 0, 0⟩,
      Op.dequeue 4, Op.top, Op.push ⟨none, 0, 0, 9, 0, 0, 0⟩] = some q ∧ q.size = 3 - 1 :=
  ⟨by decide,
    (size_after_pushes_dequeues [Op.push ⟨none, 0, 0, 7, 0, 0, 0⟩,
      Op.push ⟨none, 0, 0, 3, 0, 0, 0⟩, Op.dequeue 4, Op.top,
      Op.push ⟨none, 0, 0, 9, 0, 0, 0⟩] 3 1 (by decide) (by decide) (by decide)).2⟩

/-- Claim C6: `lastPopTime ()` is `0` for a newly constructed `Pifo`; after every
`dequeue ()` performed on a non-empty queue at simulation time `now` (nanoseconds) it
equals `now`; `push` and `top ()` never change it; so after any sequence of calls that
never applies `dequeue ()` to an empty queue it equals the time of the most recent
`dequeue ()`, or `0` if there has been none. -/
theorem lastPopTime_is_last_dequeue_time :
    Pifo.new.lastPopTime = 0 ∧
    (∀ (q : Pifo) (now : Int), q.empty = false →
      ∃ q1, q.dequeue now = some q1 ∧ q1.lastPopTime = now) ∧
    (∀ (q : Pifo) (x : PifoEntry), (q.push x).lastPopTime = q.lastPopTime) ∧
    (∀ q : Pifo, ∃ q1, q.step Op.top = some q1 ∧ q1.lastPopTime = q.lastPopTime) ∧
    (∀ ops : List Op, admits ops Pifo.new = true →
      ∃ q, Pifo.new.run ops = some q ∧ q.lastPopTime = lastDequeueTime ops) := by
  refine ⟨rfl, ?_, fun _ _ => rfl, fun q => ⟨q, rfl, rfl⟩, ?_⟩
  · intro q now hne
    have hdq := dequeue_eq_some q now ((empty_eq_false_iff q).mp hne)
    exact ⟨_, hdq, dequeue_lastPopTime q _ now hdq⟩
  · intro ops hvalid
    obtain ⟨q, hrun, _, htime⟩ := admits_run ops Pifo.new hvalid
    refine ⟨q, hrun, ?_⟩
    rw [htime]
    split
    · rename_i h
      rw [lastDequeueTime_of_no_dequeue ops h]
      rfl
    · rfl

theorem lastPopTime_is_last_dequeue_time_witness :
    (Pifo.new.push ⟨none, 0, 0, 7, 0, 0, 0⟩).empty = false ∧
    (∃ q1, (Pifo.new.push ⟨none, 0, 0, 7, 0, 0, 0⟩).dequeue 4 = some q1 ∧
      q1.lastPopTime = 4) ∧
    admits [Op.push ⟨none, 0, 0, 7, 0, 0, 0⟩, Op.push ⟨none, 0, 0, 3, 0, 0, 0⟩,
      Op.dequeue 4, Op.top, Op.dequeue 9, Op.push ⟨none, 0, 0, 9, 0, 0, 0⟩]
      Pifo.new = true ∧
    ∃ q, Pifo.new.run [Op.push ⟨none, 0, 0, 7, 0, 0, 0⟩, Op.push ⟨none, 0, 0, 3, 0, 0, 0⟩,
      Op.dequeue 4, Op.top, Op.dequeue 9, Op.push ⟨none, 0, 0, 9, 0, 0, 0⟩] = some q ∧
      q.lastPopTime = lastDequeueTime [Op.push ⟨none, 0, 0, 7, 0, 0, 0⟩,
        Op.push ⟨none, 0, 0, 3, 0, 0, 0⟩, Op.dequeue 4, Op.top, Op.dequeue 9,
        Op.push ⟨none, 0, 0, 9, 0, 0, 0⟩] :=
  ⟨by decide,
    lastPopTime_is_last_dequeue_time.2.1 (Pifo.new.push ⟨none, 0, 0, 7, 0, 0, 0⟩) 4
      (by decide),
    by decide,
    lastPopTime_is_last_dequeue_time.2.2.2.2 [Op.push ⟨none, 0, 0, 7, 0, 0, 0⟩,
      Op.push ⟨none, 0, 0, 3, 0, 0, 0⟩, Op.dequeue 4, Op.top, Op.dequeue 9,
      Op.push ⟨none, 0, 0, 9, 0, 0, 0⟩] (by decide)⟩

/-- Claim C10: `push (e)` makes the multiset of resident entries the previous multiset
plus `e`; `dequeue ()` on a non-empty queue makes it the previous multiset minus one
occurrence of the entry that `top ()` returned immediately before.  Entries are compared
as whole records, so every other entry stays resident with all its fields. -/
theorem push_dequeue_multiset (q : Pifo) (e : PifoEntry) (now : Int) :
    Multiset.ofList (q.push e).c = e ::ₘ Multiset.ofList q.c ∧
    (q.empty = false →
      ∃ t, q.top = some t ∧ t ∈ q.c ∧
        ∃ q1, q.dequeue now = some q1 ∧
          Multiset.ofList q1.c = (Multiset.ofList q.c).erase t) := by
  constructor
  · rw [Multiset.cons_coe]
    exact Multiset.coe_eq_coe.mpr (push_perm q e)
  · intro hne
    have hc : q.c ≠ [] := (empty_eq_false_iff q).mp hne
    have hdq := dequeue_eq_some q now hc
    refine ⟨elemAt q.c 0, top_eq_of_ne_nil q hc, ?_, _, hdq, ?_⟩
    · exact (mem_iff_elemAt _ _).mpr ⟨0, List.length_pos.mpr hc, rfl⟩
    · rw [Multiset.coe_erase]
      apply Multiset.coe_eq_coe.mpr
      have h := (dequeue_perm q _ now hdq).erase (elemAt q.c 0)
      rw [List.erase_cons_head] at h
      exact h.symm

theorem push_dequeue_multiset_witness :
    (Pifo.new.push ⟨none, 0, 0, 7, 0, 0, 0⟩).empty = false ∧
    ∃ t, (Pifo.new.push ⟨none, 0, 0, 7, 0, 0, 0⟩).top = some t ∧
      t ∈ (Pifo.new.push ⟨none, 0, 0, 7, 0, 0, 0⟩).c ∧
      ∃ q1, (Pifo.new.push ⟨none, 0, 0, 7, 0, 0, 0⟩).dequeue 4 = some q1 ∧
        Multiset.ofList q1.c
          = (Multiset.ofList (Pifo.new.push ⟨none, 0, 0, 7, 0, 0, 0⟩).c).erase t :=
  ⟨by decide,
    (push_dequeue_multiset (Pifo.new.push ⟨none, 0, 0, 7, 0, 0, 0⟩)
      ⟨none, 0, 0, 1, 0, 0, 0⟩ 4).2 (by decide)⟩

/-! ## The numeric helpers -/

/-- Claim C8: over exact rational arithmetic, `Estimator (nQueued, 0, qAvg, qW)` equals
`(1 − qW) · qAvg + qW · nQueued` (plain EWMA) for every `nQueued`, `qAvg`, `qW`, and
`Estimator (0, m, qAvg, qW)` equals `(1 − qW)^(m+1) · qAvg` for every `m`. -/
theorem Estimator_ewma_and_decay :
    (∀ (nQueued : Nat) (qAvg qW : ℚ),
      Estimator nQueued 0 qAvg qW = (1 - qW) * qAvg + qW * nQueued) ∧
    (∀ (m : Nat) (qAvg qW : ℚ),
      Estimator 0 m qAvg qW = (1 - qW) ^ (m + 1) * qAvg) := by
  constructor
  · intro nQueued qAvg qW
    simp [Estimator]
  · intro m qAvg qW
    simp [Estimator]

theorem MapSize_scaled_le (qSizeBits maxSize : Nat) (hmax : 0 < maxSize) (s : ℚ)
    (hs : s ≤ maxSize) :
    ⌊s * ((2 ^ qSizeBits - 1 : Nat) : ℚ) / (maxSize : ℚ)⌋₊ ≤ 2 ^ qSizeBits - 1 := by
  have hM : (0 : ℚ) < maxSize := by exact_mod_cast hmax
  apply Nat.floor_le_of_le
  rw [div_le_iff₀ hM]
  have hC : (0 : ℚ) ≤ ((2 ^ qSizeBits - 1 : Nat) : ℚ) := Nat.cast_nonneg _
  rw [mul_comm]
  exact mul_le_mul_of_nonneg_left hs hC

theorem MapSize_le (qSizeBits maxSize : Nat) (hmax : 0 < maxSize) (s : ℚ) :
    MapSize qSizeBits maxSize s ≤ 2 ^ qSizeBits - 1 := by
  unfold MapSize
  split
  · exact Nat.zero_le _
  · split
    · exact le_refl _
    · rename_i h1 h2
      exact MapSize_scaled_le qSizeBits maxSize hmax s (le_of_lt (not_le.mp h2))

/-- Claim C9: for a positive maximum size, `MapSize (0) = 0`,
`MapSize (maxSize) = 2^qSizeBits − 1`, `MapSize` is monotonic non-decreasing, every
input above `maxSize` yields the maximum code `2^qSizeBits − 1`, no input yields more
than the maximum code, and every code in `[0, 2^qSizeBits − 1]` is the image of some
input in `[0, maxSize]`. -/
theorem MapSize_onto_code_range (qSizeBits maxSize : Nat) (hmax : 0 < maxSize) :
    MapSize qSizeBits maxSize 0 = 0 ∧
    MapSize qSizeBits maxSize (maxSize : ℚ) = 2 ^ qSizeBits - 1 ∧
    (∀ s1 s2 : ℚ, s1 ≤ s2 → MapSize qSizeBits maxSize s1 ≤ MapSize qSizeBits maxSize s2) ∧
    (∀ s : ℚ, (maxSize : ℚ) < s → MapSize qSizeBits maxSize s = 2 ^ qSizeBits - 1) ∧
    (∀ s : ℚ, MapSize qSizeBits maxSize s ≤ 2 ^ qSizeBits - 1) ∧
    (∀ code : Nat, code ≤ 2 ^ qSizeBits - 1 →
      ∃ s : ℚ, 0 ≤ s ∧ s ≤ (maxSize : ℚ) ∧ MapSize qSizeBits maxSize s = code) := by
  have hM : (0 : ℚ) < maxSize := by exact_mod_cast hmax
  have hC : (0 : ℚ) ≤ ((2 ^ qSizeBits - 1 : Nat) : ℚ) := Nat.cast_nonneg _
  have hclamp : ∀ s : ℚ, (maxSize : ℚ) ≤ s →
      MapSize qSizeBits maxSize s = 2 ^ qSizeBits - 1 := by
    intro s hs
    unfold MapSize
    rw [if_neg (not_le.mpr (lt_of_lt_of_le hM hs)), if_pos hs]
  refine ⟨by simp [MapSize], hclamp _ (le_refl _), ?_, fun s hs => hclamp s (le_of_lt hs),
    MapSize_le qSizeBits maxSize hmax, ?_⟩
  · intro s1 s2 h12
    by_cases h1 : s1 ≤ 0
    · unfold MapSize
      rw [if_pos h1]
      exact Nat.zero_le _
    · have h2 : ¬ s2 ≤ 0 := fun h => h1 (le_trans h12 h)
      by_cases h3 : (maxSize : ℚ) ≤ s2
      · rw [hclamp s2 h3]
        exact MapSize_le qSizeBits maxSize hmax s1
      · have h4 : ¬ (maxSize : ℚ) ≤ s1 := fun h => h3 (le_trans h h12)
        unfold MapSize
        rw [if_neg h1, if_neg h4, if_neg h2, if_neg h3]
        apply Nat.floor_le_floor
        apply div_le_div_of_nonneg_right _ (le_of_lt hM)
        exact mul_le_mul_of_nonneg_right h12 hC
  · intro code hcode
    by_cases hcm : code = 2 ^ qSizeBits - 1
    · exact ⟨maxSize, le_of_lt hM, le_refl _, by rw [hclamp _ (le_refl _), hcm]⟩
    · have hlt : code < 2 ^ qSizeBits - 1 := lt_of_le_of_ne hcode hcm
      have hCpos : (0 : ℚ) < ((2 ^ qSizeBits - 1 : Nat) : ℚ) := by
        exact_mod_cast (lt_of_le_of_lt (Nat.zero_le _) hlt)
      have hcq : (code : ℚ) < ((2 ^ qSizeBits - 1 : Nat) : ℚ) := by exact_mod_cast hlt
      have hs0 : (0 : ℚ) ≤ (code : ℚ) * maxSize / ((2 ^ qSizeBits - 1 : Nat) : ℚ) :=
        div_nonneg (mul_nonneg (Nat.cast_nonneg _) (le_of_lt hM)) hC
      have hsM : (code : ℚ) * maxSize / ((2 ^ qSizeBits - 1 : Nat) : ℚ) < maxSize := by
        rw [div_lt_iff₀ hCpos, mul_comm]
        exact mul_lt_mul_of_pos_left hcq hM
      refine ⟨(code : ℚ) * maxSize / ((2 ^ qSizeBits - 1 : Nat) : ℚ), hs0, le_of_lt hsM, ?_⟩
      by_cases hc0 : code = 0
      · subst hc0
        simp [MapSize]
      · have hpos : ¬ (code : ℚ) * maxSize / ((2 ^ qSizeBits - 1 : Nat) : ℚ) ≤ 0 := by
          rw [not_le]
          have : (0 : ℚ) < code := by exact_mod_cast Nat.pos_of_ne_zero hc0
          exact div_pos (mul_pos this hM) hCpos
        unfold MapSize
        rw [if_neg hpos, if_neg (not_le.mpr hsM)]
        have key : ∀ c C M : ℚ, 0 < C → 0 < M → c * M / C * C / M = c := by
          intro c C M hC0 hM0
          field_simp
        rw [key _ _ _ hCpos hM, Nat.floor_natCast]

theorem MapSize_onto_code_range_witness :
    0 < 100 ∧ MapSize 8 100 0 = 0 ∧ MapSize 8 100 ((100 : Nat) : ℚ) = 2 ^ 8 - 1 :=
  ⟨by decide, (MapSize_onto_code_range 8 100 (by decide)).1,
    (MapSize_onto_code_range 8 100 (by decide)).2.1⟩

end ns3
